import Mathlib

set_option maxHeartbeats 1000000

/-!
Shallow embedding of the `lg` tool (src/main.rs): a directory-tree scanner
that finds `.git/config` files and extracts remote name → URL mappings.

Decoded text lines are modelled as `List Char` (Rust `String` after UTF-8
decoding).  Byte-level slicing in the source (`line[8..line.len()-1]`) is
justified by the char-boundary theorems over the UTF-8 encoding model below:
under the guards `starts_with("[remote ")` / `ends_with("]")` (all-ASCII
patterns) the byte slice coincides with dropping 8 leading chars and one
trailing char.

The `HashMap<String, String>` is modelled as an association list whose
`insert` replaces in place; the key set stays duplicate-free, so `length`
models `HashMap::len`.

The filesystem is modelled as a tree: files carry an `openable` flag
(`File::open` success) and lines each of which is `some` decoded text or
`none` (a line that fails to decode, i.e. the `line?` error); directories
carry a `readable` flag (`fs::read_dir` success) and a name-keyed entry
list in enumeration order.
-/

abbrev RStr := List Char

def startsWithL : List Char → List Char → Bool
  | [], _ => true
  | _ :: _, [] => false
  | p :: ps, c :: cs => p == c && startsWithL ps cs

def endsWithL (pat s : List Char) : Bool :=
  startsWithL pat.reverse s.reverse

/-- Rust `str::trim`: remove whitespace from both ends. -/
def trimL (l : List Char) : List Char :=
  ((l.dropWhile Char.isWhitespace).reverse.dropWhile Char.isWhitespace).reverse

/-- `HashMap::insert` on an association list: replace in place or append. -/
def insertA : List (RStr × RStr) → RStr → RStr → List (RStr × RStr)
  | [], k, v => [(k, v)]
  | (k0, v0) :: rest, k, v =>
    if k0 = k then (k, v) :: rest else (k0, v0) :: insertA rest k v

/-- `HashMap::get` on an association list. -/
def lookupA : List (RStr × RStr) → RStr → Option RStr
  | [], _ => none
  | (k0, v0) :: rest, k => if k0 = k then some v0 else lookupA rest k

/-- Parser state of `parse_git_config`: the accumulated map and the
current remote name (`current_remote`). -/
structure PState where
  remotes : List (RStr × RStr)
  current : Option RStr
deriving DecidableEq

/-- One iteration of the line loop of `parse_git_config`
(src/main.rs lines 51-63). -/
def procLine (st : PState) (raw : RStr) : PState :=
  if startsWithL "[remote ".data (trimL raw) && endsWithL "]".data (trimL raw) then
    { st with current := some ((((trimL raw).drop 8).dropLast).filter (fun c => c != '"')) }
  else if startsWithL "url = ".data (trimL raw) then
    match st.current with
    | some name => { st with remotes := insertA st.remotes name ((trimL raw).drop 6) }
    | none => st
  else st

/-- The line loop: each raw line is `some` decoded text or `none`
(a line whose read/decode failed, aborting with `Err`). -/
def runLines : PState → List (Option RStr) → Except String (List (RStr × RStr))
  | st, [] => .ok st.remotes
  | _, none :: _ => .error "Failed to read line from Git config"
  | st, some l :: rest => runLines (procLine st l) rest

/-- A file as seen by `parse_git_config`: whether `File::open` succeeds,
and the (possibly failing) decoded lines. -/
structure FileM where
  openable : Bool
  lines : List (Option RStr)
deriving DecidableEq

/-- `parse_git_config` (src/main.rs lines 43-65). -/
def parse_git_config (f : FileM) : Except String (List (RStr × RStr)) :=
  if f.openable then runLines ⟨[], none⟩ f.lines
  else .error "Failed to open Git config file"

/-- A filesystem node: a file (with `File::open` success flag and decoded
lines) or a directory (with `fs::read_dir` success flag and named entries
in enumeration order). -/
inductive FSNode where
  | fileN (openable : Bool) (lines : List (Option RStr))
  | dirN (readable : Bool) (entries : List (String × FSNode))

def FSNode.isDir : FSNode → Bool
  | .fileN .. => false
  | .dirN .. => true

def FSNode.entriesOf : FSNode → List (String × FSNode)
  | .fileN .. => []
  | .dirN _ es => es

/-- The `GitDirectory` result struct (src/main.rs lines 13-20).  Paths are
modelled as component lists: the root keeps the given search path, children
get the output of `strip_prefix` against their parent. -/
inductive GitDirectory where
  | node (path : List String) (remotes : List (RStr × RStr)) (children : List GitDirectory)

def GitDirectory.path : GitDirectory → List String
  | .node p _ _ => p

def GitDirectory.remotes : GitDirectory → List (RStr × RStr)
  | .node _ r _ => r

def GitDirectory.children : GitDirectory → List GitDirectory
  | .node _ _ c => c

def lookupEntry (nm : String) : List (String × FSNode) → Option FSNode
  | [] => none
  | (n, x) :: rest => if n = nm then some x else lookupEntry nm rest

/-- The file at `<dir>/.git/config`, when `is_file()` holds for that path:
the entry `.git` must be a directory containing a file entry `config`. -/
def cfgFile (es : List (String × FSNode)) : Option (Bool × List (Option RStr)) :=
  match lookupEntry ".git" es with
  | some (.dirN _ ges) =>
    match lookupEntry "config" ges with
    | some (.fileN op lines) => some (op, lines)
    | _ => none
  | _ => none

/-- `try_get_git_config_remotes` (src/main.rs lines 67-77), on the entry
list of the given directory. -/
def try_get_git_config_remotes (es : List (String × FSNode)) :
    Except String (Option (List (RStr × RStr))) :=
  match cfgFile es with
  | some (op, lines) =>
    match parse_git_config ⟨op, lines⟩ with
    | .ok m => .ok (some m)
    | .error e => .error ("Error parsing .git/config: " ++ e)
  | none => .ok none

/-- `Path::strip_prefix` on component lists (the `?` in the source can in
principle fail, so the model keeps the error case). -/
def relPath : List String → List String → Except String (List String)
  | [], p => .ok p
  | b :: bs, q :: qs => if b = q then relPath bs qs else .error "relativization"
  | _ :: _, [] => .error "relativization"

mutual
/-- `find_git_configs` (src/main.rs lines 82-117).  `dpath` is the full
path of `dir`; the tool only ever calls it on directories. -/
def find_git_configs (dpath : List String) (recurse : Bool) : FSNode → Except String GitDirectory
  | .fileN .. => .error "not a directory"
  | .dirN readable es =>
    match try_get_git_config_remotes es with
    | .error e => .error e
    | .ok r =>
      if readable then
        match findChildren dpath recurse es with
        | .error e => .error e
        | .ok cs => .ok (.node dpath (match r with | some m => m | none => []) cs)
      else .error "Failed to read directory"

/-- The entry loop of `find_git_configs` (src/main.rs lines 91-114),
in enumeration order; non-directories are skipped. -/
def findChildren (dpath : List String) (recurse : Bool) :
    List (String × FSNode) → Except String (List GitDirectory)
  | [] => .ok []
  | (n, x) :: rest =>
    if x.isDir then
      if recurse then
        match find_git_configs (dpath ++ [n]) true x with
        | .error e => .error e
        | .ok child =>
          if !child.children.isEmpty || !child.remotes.isEmpty then
            match relPath dpath (dpath ++ [n]) with
            | .error e => .error e
            | .ok rp =>
              match findChildren dpath true rest with
              | .error e => .error e
              | .ok cs => .ok (.node rp child.remotes child.children :: cs)
          else findChildren dpath true rest
      else
        match try_get_git_config_remotes x.entriesOf with
        | .error e => .error e
        | .ok none => findChildren dpath false rest
        | .ok (some m) =>
          match relPath dpath (dpath ++ [n]) with
          | .error e => .error e
          | .ok rp =>
            match findChildren dpath false rest with
            | .error e => .error e
            | .ok cs => .ok (.node rp m [] :: cs)
    else findChildren dpath recurse rest
end

/-! ### Basic lemmas about the string primitives -/

theorem startsWithL_self_append (p t : List Char) : startsWithL p (p ++ t) = true := by
  induction p with
  | nil => rfl
  | cons c cs ih => simp [startsWithL, ih]

theorem startsWithL_iff (p s : List Char) :
    startsWithL p s = true ↔ ∃ t, s = p ++ t := by
  constructor
  · intro h
    induction p generalizing s with
    | nil => exact ⟨s, rfl⟩
    | cons c cs ih =>
      cases s with
      | nil => simp [startsWithL] at h
      | cons a as =>
        simp only [startsWithL, Bool.and_eq_true, beq_iff_eq] at h
        obtain ⟨t, ht⟩ := ih as h.2
        exact ⟨t, by simp [h.1, ht]⟩
  · rintro ⟨t, rfl⟩
    exact startsWithL_self_append p t

theorem endsWithL_concat (c : Char) (l : List Char) :
    endsWithL [c] (l ++ [c]) = true := by
  simp [endsWithL, startsWithL]

theorem endsWithL_iff_concat (c : Char) (s : List Char) :
    endsWithL [c] s = true ↔ ∃ t, s = t ++ [c] := by
  constructor
  · intro h
    unfold endsWithL at h
    rw [startsWithL_iff] at h
    obtain ⟨t, ht⟩ := h
    refine ⟨t.reverse, ?_⟩
    have := congrArg List.reverse ht
    simpa using this
  · rintro ⟨t, rfl⟩
    exact endsWithL_concat c t

theorem trimL_shape (a b : Char) (mid : List Char)
    (ha : a.isWhitespace = false) (hb : b.isWhitespace = false) :
    trimL (a :: (mid ++ [b])) = a :: (mid ++ [b]) := by
  unfold trimL
  rw [List.dropWhile_cons, ha]
  simp only [if_false, Bool.false_eq_true]
  have : (a :: (mid ++ [b])).reverse = b :: (mid.reverse ++ [a]) := by simp
  rw [this, List.dropWhile_cons, hb]
  simp

/-! ### Section and url lines, and how `procLine` treats them -/

/-- A well-formed section header line for remote `x`. -/
def secLine (x : RStr) : RStr := "[remote \"".data ++ x ++ "\"]".data

/-- A well-formed url line for URL `y`. -/
def urlLine (y : RStr) : RStr := "url = ".data ++ y

theorem trimL_secLine (x : RStr) : trimL (secLine x) = secLine x := by
  have h : secLine x = '[' :: ((['r', 'e', 'm', 'o', 't', 'e', ' ', '"'] ++ x ++ ['"']) ++ [']']) := by
    simp [secLine]
  rw [h, trimL_shape] <;> rfl

theorem startsWithL_hdr_secLine (x : RStr) :
    startsWithL "[remote ".data (secLine x) = true := by
  have h : secLine x = "[remote ".data ++ ('"' :: (x ++ "\"]".data)) := by simp [secLine]
  rw [h]
  exact startsWithL_self_append _ _

theorem endsWithL_secLine (x : RStr) : endsWithL "]".data (secLine x) = true := by
  have h : secLine x = ("[remote \"".data ++ x ++ ['"']) ++ [']'] := by simp [secLine]
  rw [h]
  exact endsWithL_concat _ _

theorem secLine_name (x : RStr) (hx : ∀ c ∈ x, c ≠ '"') :
    (((secLine x).drop 8).dropLast).filter (fun c => c != '"') = x := by
  have h : secLine x = "[remote ".data ++ (('"' :: (x ++ ['"'])) ++ [']']) := by simp [secLine]
  rw [h]
  have h8 : ("[remote ".data).length = 8 := by rfl
  rw [← h8, List.drop_left, List.dropLast_concat]
  have : List.filter (fun c => c != '"') ('"' :: (x ++ ['"'])) =
      List.filter (fun c => c != '"') x := by
    simp [List.filter_append]
  rw [this]
  apply List.filter_eq_self.2
  intro c hc
  simpa using hx c hc

/-- Effect of a section line on the parser state (src/main.rs lines 55-57). -/
theorem procLine_sec (st : PState) (x : RStr) (hx : ∀ c ∈ x, c ≠ '"') :
    procLine st (secLine x) = { st with current := some x } := by
  unfold procLine
  rw [trimL_secLine, startsWithL_hdr_secLine, endsWithL_secLine]
  simp [secLine_name x hx]

theorem trimL_urlLine (y : RStr) (hy : y ≠ []) (hws : ∀ c ∈ y, c.isWhitespace = false) :
    trimL (urlLine y) = urlLine y := by
  rcases List.eq_nil_or_concat y with rfl | ⟨y0, b, hyb⟩
  · exact absurd rfl hy
  · rw [List.concat_eq_append] at hyb
    subst hyb
    have h : urlLine (y0 ++ [b]) = 'u' :: ((['r', 'l', ' ', '=', ' '] ++ y0) ++ [b]) := by
      simp [urlLine]
    rw [h, trimL_shape]
    · rfl
    · exact hws b (by simp)

theorem procLine_url (st : PState) (y : RStr) (hy : y ≠ [])
    (hws : ∀ c ∈ y, c.isWhitespace = false) :
    procLine st (urlLine y) =
      match st.current with
      | some n => { st with remotes := insertA st.remotes n y }
      | none => st := by
  unfold procLine
  rw [trimL_urlLine y hy hws]
  have h1 : startsWithL "[remote ".data (urlLine y) = false := by
    simp [urlLine, startsWithL]
  have h2 : startsWithL "url = ".data (urlLine y) = true := by
    unfold urlLine
    exact startsWithL_self_append _ _
  rw [h1]
  simp only [Bool.false_and, if_false, Bool.false_eq_true]
  rw [h2]
  have hdrop : (urlLine y).drop 6 = y := by
    have h6 : ("url = ".data).length = 6 := by rfl
    unfold urlLine
    rw [← h6, List.drop_left]
  simp [hdrop]

/-! ### Association-list map lemmas -/

theorem insertA_of_not_mem (m : List (RStr × RStr)) (k v : RStr)
    (h : ∀ q ∈ m, q.1 ≠ k) : insertA m k v = m ++ [(k, v)] := by
  induction m with
  | nil => rfl
  | cons q rest ih =>
    obtain ⟨k0, v0⟩ := q
    have hk0 : k0 ≠ k := h (k0, v0) (by simp)
    simp only [insertA, if_neg hk0, List.cons_append, List.cons.injEq, true_and]
    exact ih (fun q hq => h q (by simp [hq]))

theorem lookupA_mem (m : List (RStr × RStr)) (k v : RStr)
    (hnd : (m.map Prod.fst).Nodup) (hmem : (k, v) ∈ m) : lookupA m k = some v := by
  induction m with
  | nil => simp at hmem
  | cons q rest ih =>
    obtain ⟨k0, v0⟩ := q
    simp only [List.map_cons, List.nodup_cons] at hnd
    rcases List.mem_cons.1 hmem with h | h
    · rw [Prod.mk.injEq] at h
      obtain ⟨rfl, rfl⟩ := h
      simp [lookupA]
    · have hk0 : k0 ≠ k := by
        intro hk
        subst hk
        exact hnd.1 (List.mem_map.2 ⟨(k0, v), h, rfl⟩)
      simp only [lookupA, if_neg hk0]
      exact ih hnd.2 h

/-- Folding distinct-key inserts over an accumulator disjoint from the keys
appends the pairs in order. -/
theorem foldl_insertA (ps : List (RStr × RStr)) :
    ∀ m : List (RStr × RStr), (∀ p ∈ ps, ∀ q ∈ m, q.1 ≠ p.1) →
    (ps.map Prod.fst).Nodup →
    ps.foldl (fun acc p => insertA acc p.1 p.2) m = m ++ ps := by
  induction ps with
  | nil => intro m _ _; simp
  | cons p rest ih =>
    intro m hdisj hnd
    obtain ⟨x, y⟩ := p
    simp only [List.foldl_cons]
    rw [insertA_of_not_mem m x y (hdisj (x, y) (by simp))]
    simp only [List.map_cons, List.nodup_cons] at hnd
    rw [ih (m ++ [(x, y)]) ?_ hnd.2]
    · simp
    · intro p hp q hq
      rcases List.mem_append.1 hq with h | h
      · exact hdisj p (by simp [hp]) q h
      · simp only [List.mem_singleton] at h
        subst h
        intro hxy
        exact hnd.1 (List.mem_map.2 ⟨p, hp, hxy.symm⟩)

/-! ### Running the parser over well-formed section blocks -/

/-- The configuration text for a list of (name, url) pairs: one
`[remote "name"]` section immediately followed by one `url = ` line each. -/
def cfgLines (ps : List (RStr × RStr)) : List RStr :=
  (ps.map (fun p => [secLine p.1, urlLine p.2])).flatten

/-- Side conditions making a (name, url) pair survive a parse round-trip:
no quote characters in the name, and a non-empty whitespace-free URL. -/
def goodPair (p : RStr × RStr) : Prop :=
  (∀ c ∈ p.1, c ≠ '"') ∧ p.2 ≠ [] ∧ ∀ c ∈ p.2, c.isWhitespace = false

instance (p : RStr × RStr) : Decidable (goodPair p) := by
  unfold goodPair
  infer_instance

theorem runLines_cfgLines (ps : List (RStr × RStr)) :
    ∀ st : PState, (∀ p ∈ ps, goodPair p) →
    runLines st ((cfgLines ps).map some) =
      .ok (ps.foldl (fun acc p => insertA acc p.1 p.2) st.remotes) := by
  induction ps with
  | nil => intro st _; rfl
  | cons p rest ih =>
    intro st hgood
    obtain ⟨x, y⟩ := p
    obtain ⟨hx, hy, hws⟩ := hgood (x, y) (by simp)
    have hshape : cfgLines ((x, y) :: rest) = secLine x :: urlLine y :: cfgLines rest := by
      simp [cfgLines]
    rw [hshape]
    simp only [List.map_cons, runLines]
    rw [procLine_sec st x hx, procLine_url _ y hy hws]
    simp only []
    rw [ih _ (fun p hp => hgood p (by simp [hp]))]
    rfl

/-! ### Claim C1 -/

/-- C1: for every well-formed configuration text containing N distinct
`[remote "X"]` sections each followed by exactly one `url = Y` line,
`parse_git_config` returns a mapping of size N that maps each name X to
its URL Y. -/
theorem parse_git_config_wellformed_sections (ps : List (RStr × RStr))
    (hgood : ∀ p ∈ ps, goodPair p)
    (hnd : (ps.map Prod.fst).Nodup) :
    ∃ m, parse_git_config ⟨true, (cfgLines ps).map some⟩ = .ok m ∧
      m.length = ps.length ∧ ∀ p ∈ ps, lookupA m p.1 = some p.2 := by
  refine ⟨ps, ?_, rfl, ?_⟩
  · show runLines ⟨[], none⟩ ((cfgLines ps).map some) = .ok ps
    rw [runLines_cfgLines ps _ hgood]
    rw [foldl_insertA ps [] (by simp) hnd]
    simp
  · intro p hp
    exact lookupA_mem ps p.1 p.2 hnd hp

def psW : List (RStr × RStr) :=
  [("origin".data, "https://example.com/a.git".data),
   ("upstream".data, "https://example.com/b.git".data)]

theorem parse_git_config_wellformed_sections_witness :
    (∀ p ∈ psW, goodPair p) ∧ (psW.map Prod.fst).Nodup ∧
    ∃ m, parse_git_config ⟨true, (cfgLines psW).map some⟩ = .ok m ∧
      m.length = psW.length ∧ ∀ p ∈ psW, lookupA m p.1 = some p.2 :=
  ⟨by decide, by decide,
    parse_git_config_wellformed_sections psW (by decide) (by decide)⟩

theorem runLines_cons (st : PState) (l : RStr) (rest : List (Option RStr)) :
    runLines st (some l :: rest) = runLines (procLine st l) rest := rfl

/-! ### Claim C7 -/

/-- C7: when the same remote name is declared twice with two different
`url = ` lines, `parse_git_config` maps that name to the URL encountered
last in file order (last write wins). -/
theorem parse_git_config_last_write_wins (x y1 y2 : RStr)
    (hx : ∀ c ∈ x, c ≠ '"')
    (hy1 : y1 ≠ []) (hw1 : ∀ c ∈ y1, c.isWhitespace = false)
    (hy2 : y2 ≠ []) (hw2 : ∀ c ∈ y2, c.isWhitespace = false)
    (hne : y1 ≠ y2) :
    parse_git_config ⟨true, ([secLine x, urlLine y1, secLine x, urlLine y2]).map some⟩ =
      .ok [(x, y2)] := by
  show runLines ⟨[], none⟩
    [some (secLine x), some (urlLine y1), some (secLine x), some (urlLine y2)] = _
  rw [runLines_cons, procLine_sec _ x hx]
  rw [runLines_cons, procLine_url _ y1 hy1 hw1]
  show runLines ⟨[(x, y1)], some x⟩ [some (secLine x), some (urlLine y2)] = _
  rw [runLines_cons, procLine_sec _ x hx]
  show runLines ⟨[(x, y1)], some x⟩ [some (urlLine y2)] = _
  rw [runLines_cons, procLine_url _ y2 hy2 hw2]
  show Except.ok (insertA [(x, y1)] x y2) = _
  simp [insertA]

theorem parse_git_config_last_write_wins_witness :
    parse_git_config ⟨true,
        ([secLine "origin".data, urlLine "https://a".data,
          secLine "origin".data, urlLine "https://b".data]).map some⟩ =
      .ok [("origin".data, "https://b".data)] :=
  parse_git_config_last_write_wins "origin".data "https://a".data "https://b".data
    (by decide) (by decide) (by decide) (by decide) (by decide) (by decide)

/-! ### Claim C9 -/

/-- C9: per-line behavior of the parser: a trimmed line with literal
prefix `[remote ` and literal suffix `]` sets the current remote name to
the text between them with all double quotes removed (however malformed);
a trimmed line with prefix `url = ` records the remainder for the current
remote name if one is set and is ignored otherwise; every other line
leaves the mapping and the parser state unchanged. -/
theorem procLine_spec (st : PState) (raw : RStr) :
    ((startsWithL "[remote ".data (trimL raw) && endsWithL "]".data (trimL raw)) = true →
      procLine st raw =
        { st with current := some ((((trimL raw).drop 8).dropLast).filter (fun c => c != '"')) })
    ∧ ((startsWithL "[remote ".data (trimL raw) && endsWithL "]".data (trimL raw)) = false →
      startsWithL "url = ".data (trimL raw) = true →
      procLine st raw = (match st.current with
        | some n => { st with remotes := insertA st.remotes n ((trimL raw).drop 6) }
        | none => st))
    ∧ ((startsWithL "[remote ".data (trimL raw) && endsWithL "]".data (trimL raw)) = false →
      startsWithL "url = ".data (trimL raw) = false →
      procLine st raw = st) := by
  refine ⟨fun h => ?_, fun h1 h2 => ?_, fun h1 h2 => ?_⟩
  · simp only [procLine, h, if_true]
  · simp only [procLine, h1, h2, if_true, Bool.false_eq_true, if_false]
  · simp only [procLine, h1, h2, Bool.false_eq_true, if_false]

theorem procLine_spec_witness :
    (procLine ⟨[], none⟩ "[remote \"ori\"gin\"]".data = ⟨[], some "origin".data⟩) ∧
    (procLine ⟨[], some "origin".data⟩ "  url = https://a  ".data =
      ⟨[("origin".data, "https://a".data)], some "origin".data⟩) ∧
    (procLine ⟨[], some "origin".data⟩ "# comment".data = ⟨[], some "origin".data⟩) := by
  refine ⟨?_, ?_, ?_⟩
  · rw [(procLine_spec ⟨[], none⟩ "[remote \"ori\"gin\"]".data).1 (by decide)]
    decide
  · rw [(procLine_spec ⟨[], some "origin".data⟩ "  url = https://a  ".data).2.1
      (by decide) (by decide)]
    decide
  · rw [(procLine_spec ⟨[], some "origin".data⟩ "# comment".data).2.2
      (by decide) (by decide)]

/-! ### Claim C10: UTF-8 byte-slice safety -/

/-- The UTF-8 encoding of one character, as byte values. -/
def utf8Enc (c : Char) : List Nat :=
  if c.toNat < 128 then [c.toNat]
  else if c.toNat < 2048 then [192 + c.toNat / 64, 128 + c.toNat % 64]
  else if c.toNat < 65536 then
    [224 + c.toNat / 4096, 128 + (c.toNat / 64) % 64, 128 + c.toNat % 64]
  else
    [240 + c.toNat / 262144, 128 + (c.toNat / 4096) % 64, 128 + (c.toNat / 64) % 64,
      128 + c.toNat % 64]

/-- The UTF-8 byte string of a decoded line. -/
def utf8Str (s : List Char) : List Nat := (s.map utf8Enc).flatten

/-- A UTF-8 continuation byte (`byte & 0xC0 == 0x80`). -/
def contByte (b : Nat) : Bool := decide (128 ≤ b) && decide (b < 192)

/-- Rust `str::is_char_boundary` on the byte string. -/
def isBoundary (bs : List Nat) (i : Nat) : Bool :=
  i == 0 || i == bs.length ||
    (match bs[i]? with
     | some b => !contByte b
     | none => false)

theorem utf8Enc_ne_nil (c : Char) : utf8Enc c ≠ [] := by
  unfold utf8Enc
  split <;> try simp
  split <;> try simp
  split <;> simp

theorem utf8Enc_head_not_cont (c : Char) (b : Nat) (h : (utf8Enc c).head? = some b) :
    contByte b = false := by
  unfold utf8Enc at h
  split at h
  · simp only [List.head?_cons, Option.some.injEq] at h
    subst h
    simp only [contByte, Bool.and_eq_false_iff, decide_eq_false_iff_not, not_le]
    left
    omega
  · split at h
    · simp only [List.head?_cons, Option.some.injEq] at h
      subst h
      simp only [contByte, Bool.and_eq_false_iff, decide_eq_false_iff_not, not_lt]
      right
      omega
    · split at h
      · simp only [List.head?_cons, Option.some.injEq] at h
        subst h
        simp only [contByte, Bool.and_eq_false_iff, decide_eq_false_iff_not, not_lt]
        right
        omega
      · simp only [List.head?_cons, Option.some.injEq] at h
        subst h
        simp only [contByte, Bool.and_eq_false_iff, decide_eq_false_iff_not, not_lt]
        right
        omega

theorem utf8Str_append (a b : List Char) : utf8Str (a ++ b) = utf8Str a ++ utf8Str b := by
  simp [utf8Str]

/-- C10: whenever a decoded line starts with `[remote ` and ends with `]`,
the byte indices 8 and `len - 1` used by the slice `line[8..line.len()-1]`
fall on character boundaries of the UTF-8 encoding, so the slice never
panics. -/
theorem slice_boundaries_safe (l : List Char)
    (h1 : startsWithL "[remote ".data l = true)
    (h2 : endsWithL "]".data l = true) :
    isBoundary (utf8Str l) 8 = true ∧
    isBoundary (utf8Str l) ((utf8Str l).length - 1) = true := by
  obtain ⟨t, rfl⟩ := (startsWithL_iff _ _).1 h1
  constructor
  · rw [utf8Str_append]
    have hlen : (utf8Str "[remote ".data).length = 8 := by rfl
    cases t with
    | nil => decide
    | cons c cs =>
      have hflat : utf8Str (c :: cs) = utf8Enc c ++ utf8Str cs := by
        simp [utf8Str]
      rw [hflat]
      obtain ⟨b, bs, hb⟩ : ∃ b bs, utf8Enc c = b :: bs := by
        cases henc : utf8Enc c with
        | nil => exact absurd henc (utf8Enc_ne_nil c)
        | cons b bs => exact ⟨b, bs, rfl⟩
      rw [hb]
      unfold isBoundary
      have hget : (utf8Str "[remote ".data ++ (b :: bs ++ utf8Str cs))[8]? = some b := by
        rw [List.getElem?_append_right (by rw [hlen] : (utf8Str "[remote ".data).length ≤ 8)]
        simp [hlen]
      rw [hget]
      have hc : contByte b = false := utf8Enc_head_not_cont c b (by rw [hb]; rfl)
      simp [hc]
  · obtain ⟨t2, ht2⟩ := (endsWithL_iff_concat ']' _).1 h2
    rw [ht2, utf8Str_append]
    have hcl : utf8Str [']'] = [93] := by rfl
    rw [hcl]
    unfold isBoundary
    have hlen2 : (utf8Str t2 ++ [93]).length = (utf8Str t2).length + 1 := by simp
    have hget : (utf8Str t2 ++ [93])[(utf8Str t2).length]? = some 93 := by
      rw [List.getElem?_append_right (le_refl _)]
      simp
    rw [hlen2]
    simp only [Nat.add_sub_cancel]
    rw [hget]
    simp [contByte]

theorem slice_boundaries_safe_witness :
    isBoundary (utf8Str "[remote \"écho\"]".data) 8 = true ∧
    isBoundary (utf8Str "[remote \"écho\"]".data)
      ((utf8Str "[remote \"écho\"]".data).length - 1) = true :=
  slice_boundaries_safe "[remote \"écho\"]".data (by decide) (by decide)

/-! ### Claim C5: presence/absence of the config file -/

theorem runLines_ok_of_decoded (lines : List (Option RStr)) :
    ∀ st : PState, (∀ l ∈ lines, l ≠ none) → ∃ m, runLines st lines = .ok m := by
  induction lines with
  | nil => exact fun st _ => ⟨st.remotes, rfl⟩
  | cons l rest ih =>
    intro st h
    cases l with
    | none => exact absurd rfl (h none (by simp))
    | some s => exact ih (procLine st s) (fun l hl => h l (by simp [hl]))

theorem runLines_err_of_undecodable (lines : List (Option RStr)) :
    ∀ st : PState, none ∈ lines → ∃ e, runLines st lines = .error e := by
  induction lines with
  | nil => intro st h; simp at h
  | cons l rest ih =>
    intro st h
    cases l with
    | none => exact ⟨_, rfl⟩
    | some s =>
      have : none ∈ rest := by
        rcases List.mem_cons.1 h with h | h
        · exact absurd h (by simp)
        · exact h
      exact ih (procLine st s) this

theorem runLines_no_hdr (lines : List (Option RStr)) :
    ∀ m : List (RStr × RStr), (∀ l ∈ lines, l ≠ none) →
    (∀ s : RStr, some s ∈ lines →
      (startsWithL "[remote ".data (trimL s) && endsWithL "]".data (trimL s)) = false) →
    runLines ⟨m, none⟩ lines = .ok m := by
  induction lines with
  | nil => intro m _ _; rfl
  | cons l rest ih =>
    intro m hdec hhdr
    cases l with
    | none => exact absurd rfl (hdec none (by simp))
    | some s =>
      rw [runLines_cons]
      have hst : procLine ⟨m, none⟩ s = ⟨m, none⟩ := by
        unfold procLine
        rw [hhdr s (by simp)]
        simp only [Bool.false_eq_true, if_false]
        split <;> rfl
      rw [hst]
      exact ih m (fun l hl => hdec l (by simp [hl])) (fun s hs => hhdr s (by simp [hs]))

/-- C5: `try_get_git_config_remotes` answers `Ok(None)` exactly when there
is no file at `<dir>/.git/config`; when the file exists, is openable and
its lines decode, it answers `Ok(Some(mapping))`, and when moreover the
file has no `[remote ...]` section header lines the mapping is the empty
one — distinguishable from `None`. -/
theorem try_get_git_config_remotes_spec (es : List (String × FSNode)) :
    (try_get_git_config_remotes es = .ok none ↔ cfgFile es = none)
    ∧ (∀ lines, cfgFile es = some (true, lines) → (∀ l ∈ lines, l ≠ none) →
        ∃ m, try_get_git_config_remotes es = .ok (some m))
    ∧ (∀ lines, cfgFile es = some (true, lines) → (∀ l ∈ lines, l ≠ none) →
        (∀ s : RStr, some s ∈ lines →
          (startsWithL "[remote ".data (trimL s) && endsWithL "]".data (trimL s)) = false) →
        try_get_git_config_remotes es = .ok (some [])) := by
  refine ⟨?_, ?_, ?_⟩
  · unfold try_get_git_config_remotes
    cases hc : cfgFile es with
    | none => simp
    | some fl =>
      obtain ⟨op, lines⟩ := fl
      simp only []
      constructor
      · intro h
        split at h <;> simp at h
      · intro h
        simp at h
  · intro lines hc hdec
    unfold try_get_git_config_remotes
    rw [hc]
    obtain ⟨m, hm⟩ := runLines_ok_of_decoded lines ⟨[], none⟩ hdec
    have hp : parse_git_config ⟨true, lines⟩ = .ok m := hm
    simp only [hp]
    exact ⟨m, rfl⟩
  · intro lines hc hdec hhdr
    unfold try_get_git_config_remotes
    rw [hc]
    have hp : parse_git_config ⟨true, lines⟩ = .ok [] :=
      runLines_no_hdr lines [] hdec hhdr
    simp only [hp]

def esW5 : List (String × FSNode) :=
  [(".git", .dirN true [("config", .fileN true [some "    bare = false".data])])]

theorem try_get_git_config_remotes_spec_witness :
    ((try_get_git_config_remotes esW5 = .ok none ↔ cfgFile esW5 = none)
      ∧ try_get_git_config_remotes esW5 = .ok (some []))
    ∧ try_get_git_config_remotes [] = .ok none :=
  ⟨⟨(try_get_git_config_remotes_spec esW5).1,
    (try_get_git_config_remotes_spec esW5).2.2 [some "    bare = false".data]
      (by decide) (by decide)
      (by intro s hs; rw [List.mem_singleton, Option.some.injEq] at hs; subst hs; decide)⟩,
   ((try_get_git_config_remotes_spec []).1).2 (by decide)⟩

/-! ### Claim C8: error propagation through the walk -/

/-- An I/O problem with the config file of a directory (given its entries):
it exists but cannot be opened, or one of its lines fails to decode. -/
def badCfgB (es : List (String × FSNode)) : Bool :=
  match cfgFile es with
  | some (op, lines) => !op || lines.any (fun l => l.isNone)
  | none => false

mutual
/-- Some I/O problem anywhere in the subtree reached by the recursive
walk: an unreadable directory, or a bad config file. -/
def anyBad : FSNode → Bool
  | .fileN .. => false
  | .dirN rd es => !rd || badCfgB es || anyBadL es
def anyBadL : List (String × FSNode) → Bool
  | [] => false
  | (_, x) :: rest => anyBad x || anyBadL rest
end

/-- Some I/O problem in the part touched by the non-recursive walk:
the root itself or the config of a direct subdirectory. -/
def nonRecBad (rd : Bool) (es : List (String × FSNode)) : Bool :=
  !rd || badCfgB es || es.any (fun e => e.2.isDir && badCfgB e.2.entriesOf)

theorem relPath_append (d t : List String) : relPath d (d ++ t) = .ok t := by
  induction d with
  | nil => rfl
  | cons b bs ih => simp [relPath, ih]

theorem tryGet_ok_of_goodCfg (es : List (String × FSNode)) (h : badCfgB es = false) :
    ∃ r, try_get_git_config_remotes es = .ok r := by
  unfold try_get_git_config_remotes
  unfold badCfgB at h
  cases hc : cfgFile es with
  | none => exact ⟨none, rfl⟩
  | some fl =>
    obtain ⟨op, lines⟩ := fl
    rw [hc] at h
    simp only [Bool.or_eq_false_iff, Bool.not_eq_false'] at h
    obtain ⟨hop, hdec⟩ := h
    subst hop
    have hdec' : ∀ l ∈ lines, l ≠ none := by
      intro l hl
      intro hn
      subst hn
      have := List.any_eq_false.1 hdec none hl
      simp at this
    obtain ⟨m, hm⟩ := runLines_ok_of_decoded lines ⟨[], none⟩ hdec'
    have hp : parse_git_config ⟨true, lines⟩ = .ok m := hm
    simp only [hp]
    exact ⟨some m, rfl⟩

theorem tryGet_err_of_badCfg (es : List (String × FSNode)) (h : badCfgB es = true) :
    ∃ e, try_get_git_config_remotes es = .error e := by
  unfold try_get_git_config_remotes
  unfold badCfgB at h
  cases hc : cfgFile es with
  | none => rw [hc] at h; simp at h
  | some fl =>
    obtain ⟨op, lines⟩ := fl
    rw [hc] at h
    simp only [Bool.or_eq_true, Bool.not_eq_true'] at h
    rcases h with hop | hdec
    · subst hop
      have hp : parse_git_config ⟨false, lines⟩ =
          .error "Failed to open Git config file" := rfl
      simp only [hp]
      exact ⟨_, rfl⟩
    · have hmem : none ∈ lines := by
        obtain ⟨l, hl, hln⟩ := List.any_eq_true.1 hdec
        cases l with
        | none => exact hl
        | some s => simp at hln
      cases hop : op with
      | false =>
        have hp : parse_git_config ⟨false, lines⟩ =
            .error "Failed to open Git config file" := rfl
        simp only [hp]
        exact ⟨_, rfl⟩
      | true =>
        obtain ⟨e, he⟩ := runLines_err_of_undecodable lines ⟨[], none⟩ hmem
        have hp : parse_git_config ⟨true, lines⟩ = .error e := he
        simp only [hp]
        exact ⟨_, rfl⟩

mutual
theorem find_ok_of_not_bad : ∀ (p : List String) (x : FSNode), x.isDir = true →
    anyBad x = false → ∃ g, find_git_configs p true x = .ok g
  | _, .fileN _ _, hdir, _ => by simp [FSNode.isDir] at hdir
  | p, .dirN rd es, _, hbad => by
    simp only [anyBad, Bool.or_eq_false_iff, Bool.not_eq_false'] at hbad
    obtain ⟨⟨hrd, hcfg⟩, hrest⟩ := hbad
    obtain ⟨r, hr⟩ := tryGet_ok_of_goodCfg es hcfg
    obtain ⟨cs, hcs⟩ := findChildren_ok_of_not_bad p es hrest
    subst hrd
    cases r with
    | none => exact ⟨GitDirectory.node p [] cs, by simp [find_git_configs, hr, hcs]⟩
    | some m => exact ⟨GitDirectory.node p m cs, by simp [find_git_configs, hr, hcs]⟩

theorem findChildren_ok_of_not_bad : ∀ (p : List String) (es : List (String × FSNode)),
    anyBadL es = false → ∃ cs, findChildren p true es = .ok cs
  | _, [], _ => ⟨[], by simp [findChildren]⟩
  | p, (n, x) :: rest, hbad => by
    simp only [anyBadL, Bool.or_eq_false_iff] at hbad
    obtain ⟨hx, hrest⟩ := hbad
    obtain ⟨cs, hcs⟩ := findChildren_ok_of_not_bad p rest hrest
    cases hdir : x.isDir with
    | false => exact ⟨cs, by simp [findChildren, hdir, hcs]⟩
    | true =>
      obtain ⟨g, hg⟩ := find_ok_of_not_bad (p ++ [n]) x hdir hx
      cases hguard : (!g.children.isEmpty || !g.remotes.isEmpty) with
      | true =>
        exact ⟨GitDirectory.node [n] g.remotes g.children :: cs,
          by simp [findChildren, hdir, hg, hguard, relPath_append, hcs]⟩
      | false =>
        exact ⟨cs, by simp [findChildren, hdir, hg, hguard, hcs]⟩
end

mutual
theorem find_err_of_bad : ∀ (p : List String) (x : FSNode), x.isDir = true →
    anyBad x = true → ∃ e, find_git_configs p true x = .error e
  | _, .fileN _ _, hdir, _ => by simp [FSNode.isDir] at hdir
  | p, .dirN rd es, _, hbad => by
    simp only [anyBad, Bool.or_eq_true] at hbad
    cases htg : try_get_git_config_remotes es with
    | error e => exact ⟨e, by simp [find_git_configs, htg]⟩
    | ok r =>
      rcases hbad with (hrd | hcfg) | hrest
      · have hrd' : rd = false := by simpa using hrd
        subst hrd'
        exact ⟨"Failed to read directory", by simp [find_git_configs, htg]⟩
      · obtain ⟨e, he⟩ := tryGet_err_of_badCfg es hcfg
        rw [he] at htg
        exact absurd htg (by simp)
      · obtain ⟨e, he⟩ := findChildren_err_of_bad p es hrest
        cases rd with
        | false => exact ⟨"Failed to read directory", by simp [find_git_configs, htg]⟩
        | true => exact ⟨e, by simp [find_git_configs, htg, he]⟩

theorem findChildren_err_of_bad : ∀ (p : List String) (es : List (String × FSNode)),
    anyBadL es = true → ∃ e, findChildren p true es = .error e
  | _, [], h => by simp [anyBadL] at h
  | p, (n, x) :: rest, h => by
    simp only [anyBadL, Bool.or_eq_true] at h
    cases hdir : x.isDir with
    | false =>
      have hx : anyBad x = false := by
        cases x with
        | fileN op lines => simp [anyBad]
        | dirN rd' es' => simp [FSNode.isDir] at hdir
      have hrest : anyBadL rest = true := by
        rcases h with h | h
        · rw [hx] at h; exact absurd h (by simp)
        · exact h
      obtain ⟨e, he⟩ := findChildren_err_of_bad p rest hrest
      exact ⟨e, by simp [findChildren, hdir, he]⟩
    | true =>
      cases hf : find_git_configs (p ++ [n]) true x with
      | error e => exact ⟨e, by simp [findChildren, hdir, hf]⟩
      | ok g =>
        have hx : anyBad x = false := by
          cases hax : anyBad x with
          | false => rfl
          | true =>
            obtain ⟨e, he⟩ := find_err_of_bad (p ++ [n]) x hdir hax
            rw [he] at hf
            exact absurd hf (by simp)
        have hrest : anyBadL rest = true := by
          rcases h with h | h
          · rw [hx] at h; exact absurd h (by simp)
          · exact h
        obtain ⟨e, he⟩ := findChildren_err_of_bad p rest hrest
        cases hguard : (!g.children.isEmpty || !g.remotes.isEmpty) with
        | true =>
          exact ⟨e, by simp [findChildren, hdir, hf, hguard, relPath_append, he]⟩
        | false =>
          exact ⟨e, by simp [findChildren, hdir, hf, hguard, he]⟩
end

theorem findChildren_false_ok (p : List String) :
    ∀ es : List (String × FSNode),
    es.any (fun e => e.2.isDir && badCfgB e.2.entriesOf) = false →
    ∃ cs, findChildren p false es = .ok cs := by
  intro es
  induction es with
  | nil => exact fun _ => ⟨[], by simp [findChildren]⟩
  | cons e rest ih =>
    intro h
    obtain ⟨n, x⟩ := e
    simp only [List.any_cons, Bool.or_eq_false_iff] at h
    obtain ⟨hhead, hrest⟩ := h
    obtain ⟨cs, hcs⟩ := ih hrest
    cases hdir : x.isDir with
    | false => exact ⟨cs, by simp [findChildren, hdir, hcs]⟩
    | true =>
      have hbc : badCfgB x.entriesOf = false := by
        rw [hdir] at hhead
        simpa using hhead
      obtain ⟨r, hr⟩ := tryGet_ok_of_goodCfg x.entriesOf hbc
      cases r with
      | none => exact ⟨cs, by simp [findChildren, hdir, hr, hcs]⟩
      | some m =>
        exact ⟨GitDirectory.node [n] m [] :: cs,
          by simp [findChildren, hdir, hr, relPath_append, hcs]⟩

theorem findChildren_false_err (p : List String) :
    ∀ es : List (String × FSNode),
    es.any (fun e => e.2.isDir && badCfgB e.2.entriesOf) = true →
    ∃ e, findChildren p false es = .error e := by
  intro es
  induction es with
  | nil => intro h; simp at h
  | cons e rest ih =>
    intro h
    obtain ⟨n, x⟩ := e
    simp only [List.any_cons, Bool.or_eq_true] at h
    cases hdir : x.isDir with
    | false =>
      have hrest : rest.any (fun e => e.2.isDir && badCfgB e.2.entriesOf) = true := by
        rcases h with h | h
        · rw [hdir] at h; simp at h
        · exact h
      obtain ⟨e, he⟩ := ih hrest
      exact ⟨e, by simp [findChildren, hdir, he]⟩
    | true =>
      cases hbc : badCfgB x.entriesOf with
      | true =>
        obtain ⟨e, he⟩ := tryGet_err_of_badCfg x.entriesOf hbc
        exact ⟨e, by simp [findChildren, hdir, he]⟩
      | false =>
        have hrest : rest.any (fun e => e.2.isDir && badCfgB e.2.entriesOf) = true := by
          rcases h with h | h
          · rw [hdir, hbc] at h; simp at h
          · exact h
        obtain ⟨e, he⟩ := ih hrest
        obtain ⟨r, hr⟩ := tryGet_ok_of_goodCfg x.entriesOf hbc
        cases r with
        | none => exact ⟨e, by simp [findChildren, hdir, hr, he]⟩
        | some m => exact ⟨e, by simp [findChildren, hdir, hr, relPath_append, he]⟩

theorem find_false_ok (p : List String) (rd : Bool) (es : List (String × FSNode))
    (h : nonRecBad rd es = false) :
    ∃ g, find_git_configs p false (.dirN rd es) = .ok g := by
  unfold nonRecBad at h
  simp only [Bool.or_eq_false_iff, Bool.not_eq_false'] at h
  obtain ⟨⟨hrd, hcfg⟩, hsub⟩ := h
  subst hrd
  obtain ⟨r, hr⟩ := tryGet_ok_of_goodCfg es hcfg
  obtain ⟨cs, hcs⟩ := findChildren_false_ok p es hsub
  cases r with
  | none => exact ⟨GitDirectory.node p [] cs, by simp [find_git_configs, hr, hcs]⟩
  | some m => exact ⟨GitDirectory.node p m cs, by simp [find_git_configs, hr, hcs]⟩

theorem find_false_err (p : List String) (rd : Bool) (es : List (String × FSNode))
    (h : nonRecBad rd es = true) :
    ∃ e, find_git_configs p false (.dirN rd es) = .error e := by
  unfold nonRecBad at h
  simp only [Bool.or_eq_true] at h
  cases htg : try_get_git_config_remotes es with
  | error e => exact ⟨e, by simp [find_git_configs, htg]⟩
  | ok r =>
    rcases h with (hrd | hcfg) | hsub
    · have hrd' : rd = false := by simpa using hrd
      subst hrd'
      exact ⟨"Failed to read directory", by simp [find_git_configs, htg]⟩
    · obtain ⟨e, he⟩ := tryGet_err_of_badCfg es hcfg
      rw [he] at htg
      exact absurd htg (by simp)
    · cases rd with
      | false => exact ⟨"Failed to read directory", by simp [find_git_configs, htg]⟩
      | true =>
        obtain ⟨e, he⟩ := findChildren_false_err p es hsub
        exact ⟨e, by simp [find_git_configs, htg, he]⟩

/-- C8: the walk fails as a whole exactly when some I/O problem occurs in
the walked region: in recursive mode, an unreadable directory or an
existing-but-unopenable/undecodable config file anywhere in the tree; in
non-recursive mode, the same conditions limited to the root and its direct
subdirectories.  Such failures are errors, distinguishable from a missing
config file, which never causes an error. -/
theorem find_git_configs_error_iff (p : List String) (rd : Bool)
    (es : List (String × FSNode)) :
    ((∃ e, find_git_configs p true (.dirN rd es) = .error e) ↔
      anyBad (.dirN rd es) = true)
    ∧ ((∃ e, find_git_configs p false (.dirN rd es) = .error e) ↔
      nonRecBad rd es = true) := by
  constructor
  · constructor
    · rintro ⟨e, he⟩
      cases hb : anyBad (.dirN rd es) with
      | true => rfl
      | false =>
        obtain ⟨g, hg⟩ := find_ok_of_not_bad p (.dirN rd es) (by simp [FSNode.isDir]) hb
        rw [hg] at he
        exact absurd he (by simp)
    · intro hb
      exact find_err_of_bad p _ (by simp [FSNode.isDir]) hb
  · constructor
    · rintro ⟨e, he⟩
      cases hb : nonRecBad rd es with
      | true => rfl
      | false =>
        obtain ⟨g, hg⟩ := find_false_ok p rd es hb
        rw [hg] at he
        exact absurd he (by simp)
    · exact find_false_err p rd es

/-! ### Claim C2: pruning of config-less subtrees in recursive mode -/

mutual
/-- Is there a `.git/config` file anywhere in this subtree? -/
def hasCfg : FSNode → Bool
  | .fileN .. => false
  | .dirN _ es => (cfgFile es).isSome || hasCfgL es
def hasCfgL : List (String × FSNode) → Bool
  | [] => false
  | (_, x) :: rest => hasCfg x || hasCfgL rest
end

mutual
/-- Is every directory in this subtree readable? -/
def allRead : FSNode → Bool
  | .fileN .. => true
  | .dirN rd es => rd && allReadL es
def allReadL : List (String × FSNode) → Bool
  | [] => true
  | (_, x) :: rest => allRead x && allReadL rest
end

mutual
theorem find_empty_of_noCfg : ∀ (p : List String) (x : FSNode), x.isDir = true →
    hasCfg x = false → allRead x = true →
    find_git_configs p true x = .ok (.node p [] [])
  | _, .fileN _ _, hdir, _, _ => by simp [FSNode.isDir] at hdir
  | p, .dirN rd es, _, hcfg, hread => by
    simp only [hasCfg, Bool.or_eq_false_iff] at hcfg
    obtain ⟨hnone, hrest⟩ := hcfg
    simp only [allRead, Bool.and_eq_true] at hread
    obtain ⟨hrd, hreadL⟩ := hread
    subst hrd
    have hcf : cfgFile es = none := by
      cases hcf : cfgFile es with
      | none => rfl
      | some fl => rw [hcf] at hnone; simp at hnone
    have htg : try_get_git_config_remotes es = .ok none := by
      unfold try_get_git_config_remotes
      rw [hcf]
    have hch := findChildren_empty_of_noCfg p es hrest hreadL
    simp [find_git_configs, htg, hch]

theorem findChildren_empty_of_noCfg : ∀ (p : List String) (es : List (String × FSNode)),
    hasCfgL es = false → allReadL es = true → findChildren p true es = .ok []
  | _, [], _, _ => by simp [findChildren]
  | p, (n, x) :: rest, hcfg, hread => by
    simp only [hasCfgL, Bool.or_eq_false_iff] at hcfg
    simp only [allReadL, Bool.and_eq_true] at hread
    obtain ⟨hx, hrest⟩ := hcfg
    obtain ⟨hxr, hrestr⟩ := hread
    have ih := findChildren_empty_of_noCfg p rest hrest hrestr
    cases hdir : x.isDir with
    | false => simp [findChildren, hdir, ih]
    | true =>
      have hfind := find_empty_of_noCfg (p ++ [n]) x hdir hx hxr
      simp [findChildren, hdir, hfind, ih, GitDirectory.children, GitDirectory.remotes]
end

theorem lookupEntry_skip (nm n : String) (x : FSNode) (pre post : List (String × FSNode))
    (h : n ≠ nm) :
    lookupEntry nm (pre ++ (n, x) :: post) = lookupEntry nm (pre ++ post) := by
  induction pre with
  | nil => simp [lookupEntry, h]
  | cons e rest ih =>
    obtain ⟨n0, x0⟩ := e
    by_cases h0 : n0 = nm <;> simp [lookupEntry, h0, ih]

theorem findChildren_skip (p : List String) (pre post : List (String × FSNode))
    (n : String) (sub : FSNode) (hdir : sub.isDir = true)
    (hcfg : hasCfg sub = false) (hread : allRead sub = true) :
    findChildren p true (pre ++ (n, sub) :: post) = findChildren p true (pre ++ post) := by
  induction pre with
  | nil =>
    simp only [List.nil_append]
    have hfind := find_empty_of_noCfg (p ++ [n]) sub hdir hcfg hread
    simp [findChildren, hdir, hfind, GitDirectory.children, GitDirectory.remotes]
  | cons e rest ih =>
    obtain ⟨n0, x0⟩ := e
    simp only [List.cons_append]
    cases hd0 : x0.isDir with
    | false => simp [findChildren, hd0, ih]
    | true =>
      simp only [findChildren, hd0, if_true]
      rw [ih]

/-- C2: in recursive mode a directory subtree with no `.git/config` file at
any depth scans to an empty root node, and contributes no node at all to
the output: deleting that subtree entry leaves the result unchanged.  The
subtree's own scan still yields its (empty) root node, which is the only
node allowed to be empty. -/
theorem find_git_configs_prunes_configless (p : List String) (rd : Bool)
    (pre post : List (String × FSNode)) (n : String) (sub : FSNode)
    (hname : n ≠ ".git") (hdir : sub.isDir = true)
    (hcfg : hasCfg sub = false) (hread : allRead sub = true) :
    find_git_configs (p ++ [n]) true sub = .ok (.node (p ++ [n]) [] [])
    ∧ find_git_configs p true (.dirN rd (pre ++ (n, sub) :: post)) =
        find_git_configs p true (.dirN rd (pre ++ post)) := by
  refine ⟨find_empty_of_noCfg _ sub hdir hcfg hread, ?_⟩
  have htg : try_get_git_config_remotes (pre ++ (n, sub) :: post) =
      try_get_git_config_remotes (pre ++ post) := by
    unfold try_get_git_config_remotes cfgFile
    rw [lookupEntry_skip ".git" n sub pre post hname]
  have hfc := findChildren_skip p pre post n sub hdir hcfg hread
  simp [find_git_configs, htg, hfc]

theorem find_git_configs_prunes_configless_witness :
    find_git_configs (["root"] ++ ["a"]) true (.dirN true [("b", .dirN true [])]) =
      .ok (.node (["root"] ++ ["a"]) [] [])
    ∧ find_git_configs ["root"] true
        (.dirN true ([] ++ ("a", .dirN true [("b", .dirN true [])]) :: [])) =
      find_git_configs ["root"] true (.dirN true ([] ++ [])) :=
  find_git_configs_prunes_configless ["root"] true [] [] "a"
    (.dirN true [("b", .dirN true [])])
    (by decide) (by simp [FSNode.isDir])
    (by simp [hasCfg, hasCfgL, cfgFile, lookupEntry])
    (by simp [allRead, allReadL])

/-! ### Claim C3: non-empty non-root nodes -/

mutual
/-- Every non-root node below this node (itself excluded) has remotes or
children. -/
def goodNode : GitDirectory → Bool
  | .node _ _ cs => goodL cs
def goodL : List GitDirectory → Bool
  | [] => true
  | c :: cs => (!c.remotes.isEmpty || !c.children.isEmpty) && goodNode c && goodL cs
end

theorem goodNode_eq (g : GitDirectory) : goodNode g = goodL g.children := by
  cases g
  rfl

/-- A directory whose only subdirectory is a repository with a remoteless
config file. -/
def fsC3 : FSNode :=
  .dirN true [("a", .dirN true [(".git", .dirN true [("config", .fileN true [])])])]

/-- C3 fails as stated: in non-recursive mode the scan of `fsC3` emits a
child node with an empty remotes mapping and no children. -/
theorem find_git_configs_emits_empty_child :
    find_git_configs [] false fsC3 = .ok (.node [] [] [.node ["a"] [] []])
    ∧ (GitDirectory.node ["a"] [] []).remotes = []
    ∧ (GitDirectory.node ["a"] [] []).children = [] := by
  refine ⟨?_, rfl, rfl⟩
  simp [fsC3, find_git_configs, findChildren, try_get_git_config_remotes, cfgFile,
    lookupEntry, relPath, FSNode.isDir, FSNode.entriesOf, parse_git_config, runLines]

mutual
theorem goodNode_of_find : ∀ (p : List String) (x : FSNode) (g : GitDirectory),
    find_git_configs p true x = .ok g → goodNode g = true
  | _, .fileN _ _, _, h => by simp [find_git_configs] at h
  | p, .dirN rd es, g, h => by
    cases htg : try_get_git_config_remotes es with
    | error e => simp [find_git_configs, htg] at h
    | ok r =>
      cases rd with
      | false => simp [find_git_configs, htg] at h
      | true =>
        cases hfc : findChildren p true es with
        | error e => simp [find_git_configs, htg, hfc] at h
        | ok cs =>
          cases r with
          | none =>
            simp only [find_git_configs, htg, hfc, if_true] at h
            cases h
            show goodL cs = true
            exact goodL_of_findChildren p es cs hfc
          | some m =>
            simp only [find_git_configs, htg, hfc, if_true] at h
            cases h
            show goodL cs = true
            exact goodL_of_findChildren p es cs hfc

theorem goodL_of_findChildren : ∀ (p : List String) (es : List (String × FSNode))
    (cs : List GitDirectory), findChildren p true es = .ok cs → goodL cs = true
  | _, [], cs, h => by
    simp only [findChildren] at h
    cases h
    rfl
  | p, (n, x) :: rest, cs, h => by
    cases hdir : x.isDir with
    | false =>
      simp only [findChildren, hdir, Bool.false_eq_true, if_false] at h
      exact goodL_of_findChildren p rest cs h
    | true =>
      cases hf : find_git_configs (p ++ [n]) true x with
      | error e => simp [findChildren, hdir, hf] at h
      | ok child =>
        cases hguard : (!child.children.isEmpty || !child.remotes.isEmpty) with
        | false =>
          simp only [findChildren, hdir, hf, hguard, if_true, Bool.false_eq_true,
            if_false] at h
          exact goodL_of_findChildren p rest cs h
        | true =>
          cases hfc : findChildren p true rest with
          | error e => simp [findChildren, hdir, hf, hguard, relPath_append, hfc] at h
          | ok cs' =>
            simp only [findChildren, hdir, hf, hguard, relPath_append, hfc, if_true] at h
            have hcs : cs = .node [n] child.remotes child.children :: cs' := by
              cases h
              rfl
            subst hcs
            have h1 : goodNode child = true := goodNode_of_find (p ++ [n]) x child hf
            have h2 : goodL cs' = true := goodL_of_findChildren p rest cs' hfc
            simp only [goodL, GitDirectory.remotes, GitDirectory.children,
              Bool.and_eq_true]
            refine ⟨⟨?_, ?_⟩, h2⟩
            · rw [Bool.or_comm] at hguard
              exact hguard
            · rw [goodNode_eq child] at h1
              exact h1
end

/-- C3 (amended): in recursive mode, every non-root node of the returned
tree has a non-empty remotes mapping or a non-empty children sequence; in
non-recursive mode a direct child with a config file may be emitted with
both empty. -/
theorem find_git_configs_nonempty_nodes (p : List String) (x : FSNode)
    (g : GitDirectory) (h : find_git_configs p true x = .ok g) :
    goodNode g = true :=
  goodNode_of_find p x g h

theorem find_git_configs_nonempty_nodes_witness :
    goodNode (.node [] [] []) = true :=
  find_git_configs_nonempty_nodes [] fsC3 (.node [] [] [])
    (by simp [fsC3, find_git_configs, findChildren, try_get_git_config_remotes,
      cfgFile, lookupEntry, relPath, FSNode.isDir, FSNode.entriesOf,
      parse_git_config, runLines, GitDirectory.children, GitDirectory.remotes])

/-! ### Claim C6: node paths -/

mutual
/-- Every non-root node's path is a single component (relative to its
immediate parent), at every depth. -/
def relOk : GitDirectory → Bool
  | .node _ _ cs => relOkL cs
def relOkL : List GitDirectory → Bool
  | [] => true
  | c :: cs => (c.path.length == 1) && relOk c && relOkL cs
end

theorem relOk_eq (g : GitDirectory) : relOk g = relOkL g.children := by
  cases g
  rfl

mutual
theorem find_paths : ∀ (p : List String) (rec : Bool) (x : FSNode) (g : GitDirectory),
    find_git_configs p rec x = .ok g →
    g.path = p ∧ relOk g = true ∧
      ∀ c ∈ g.children, ∃ n y, (n, y) ∈ x.entriesOf ∧ c.path = [n]
  | _, _, .fileN _ _, _, h => by simp [find_git_configs] at h
  | p, rec, .dirN rd es, g, h => by
    cases htg : try_get_git_config_remotes es with
    | error e => simp [find_git_configs, htg] at h
    | ok r =>
      cases rd with
      | false => simp [find_git_configs, htg] at h
      | true =>
        cases hfc : findChildren p rec es with
        | error e => simp [find_git_configs, htg, hfc] at h
        | ok cs =>
          obtain ⟨hrel, hmem⟩ := findChildren_paths p rec es cs hfc
          cases r with
          | none =>
            simp only [find_git_configs, htg, hfc, if_true] at h
            cases h
            exact ⟨rfl, hrel, hmem⟩
          | some m =>
            simp only [find_git_configs, htg, hfc, if_true] at h
            cases h
            exact ⟨rfl, hrel, hmem⟩

theorem findChildren_paths : ∀ (p : List String) (rec : Bool)
    (es : List (String × FSNode)) (cs : List GitDirectory),
    findChildren p rec es = .ok cs →
    relOkL cs = true ∧ ∀ c ∈ cs, ∃ n y, (n, y) ∈ es ∧ c.path = [n]
  | _, _, [], cs, h => by
    simp only [findChildren] at h
    cases h
    exact ⟨rfl, by simp⟩
  | p, rec, (n, x) :: rest, cs, h => by
    cases hdir : x.isDir with
    | false =>
      simp only [findChildren, hdir, Bool.false_eq_true, if_false] at h
      obtain ⟨hrel, hmem⟩ := findChildren_paths p rec rest cs h
      refine ⟨hrel, ?_⟩
      intro c hc
      obtain ⟨n', y, hm, hp⟩ := hmem c hc
      exact ⟨n', y, List.mem_cons_of_mem _ hm, hp⟩
    | true =>
      cases rec with
      | true =>
        cases hf : find_git_configs (p ++ [n]) true x with
        | error e => simp [findChildren, hdir, hf] at h
        | ok child =>
          cases hguard : (!child.children.isEmpty || !child.remotes.isEmpty) with
          | false =>
            simp only [findChildren, hdir, hf, hguard, if_true, Bool.false_eq_true,
              if_false] at h
            obtain ⟨hrel, hmem⟩ := findChildren_paths p true rest cs h
            refine ⟨hrel, ?_⟩
            intro c hc
            obtain ⟨n', y, hm, hp⟩ := hmem c hc
            exact ⟨n', y, List.mem_cons_of_mem _ hm, hp⟩
          | true =>
            cases hfc : findChildren p true rest with
            | error e => simp [findChildren, hdir, hf, hguard, relPath_append, hfc] at h
            | ok cs' =>
              simp only [findChildren, hdir, hf, hguard, relPath_append, hfc,
                if_true] at h
              cases h
              obtain ⟨hrel', hmem'⟩ := findChildren_paths p true rest cs' hfc
              obtain ⟨_, hrelc, _⟩ := find_paths (p ++ [n]) true x child hf
              constructor
              · simp only [relOkL, GitDirectory.path, Bool.and_eq_true]
                refine ⟨⟨by simp, ?_⟩, hrel'⟩
                rw [relOk_eq child] at hrelc
                exact hrelc
              · intro c hc
                rcases List.mem_cons.1 hc with rfl | hc'
                · exact ⟨n, x, List.mem_cons_self _ _, rfl⟩
                · obtain ⟨n', y, hm, hp⟩ := hmem' c hc'
                  exact ⟨n', y, List.mem_cons_of_mem _ hm, hp⟩
      | false =>
        cases htg : try_get_git_config_remotes x.entriesOf with
        | error e => simp [findChildren, hdir, htg] at h
        | ok r =>
          cases r with
          | none =>
            simp only [findChildren, hdir, htg, Bool.false_eq_true, if_false] at h
            obtain ⟨hrel, hmem⟩ := findChildren_paths p false rest cs h
            refine ⟨hrel, ?_⟩
            intro c hc
            obtain ⟨n', y, hm, hp⟩ := hmem c hc
            exact ⟨n', y, List.mem_cons_of_mem _ hm, hp⟩
          | some m =>
            cases hfc : findChildren p false rest with
            | error e => simp [findChildren, hdir, htg, relPath_append, hfc] at h
            | ok cs' =>
              simp only [findChildren, hdir, htg, relPath_append, hfc,
                Bool.false_eq_true, if_false] at h
              cases h
              obtain ⟨hrel', hmem'⟩ := findChildren_paths p false rest cs' hfc
              constructor
              · simp only [relOkL, GitDirectory.path, Bool.and_eq_true]
                exact ⟨⟨by simp, rfl⟩, hrel'⟩
              · intro c hc
                rcases List.mem_cons.1 hc with rfl | hc'
                · exact ⟨n, x, List.mem_cons_self _ _, rfl⟩
                · obtain ⟨n', y, hm, hp⟩ := hmem' c hc'
                  exact ⟨n', y, List.mem_cons_of_mem _ hm, hp⟩
end

/-- C6: the root node keeps the search path unchanged, and every non-root
node's path is a single component: the subdirectory's own name relative to
its immediate parent — not the path from the search root and not an
absolute path. -/
theorem find_git_configs_child_paths (p : List String) (rec : Bool) (x : FSNode)
    (g : GitDirectory) (h : find_git_configs p rec x = .ok g) :
    g.path = p ∧ relOk g = true ∧
      ∀ c ∈ g.children, ∃ n y, (n, y) ∈ x.entriesOf ∧ c.path = [n] :=
  find_paths p rec x g h

theorem find_git_configs_child_paths_witness :
    (GitDirectory.node [] [] [.node ["a"] [] []]).path = []
    ∧ relOk (.node [] [] [.node ["a"] [] []]) = true
    ∧ ∀ c ∈ (GitDirectory.node [] [] [.node ["a"] [] []]).children,
        ∃ n y, (n, y) ∈ fsC3.entriesOf ∧ c.path = [n] :=
  find_git_configs_child_paths [] false fsC3 (.node [] [] [.node ["a"] [] []])
    (by simp [fsC3, find_git_configs, findChildren, try_get_git_config_remotes,
      cfgFile, lookupEntry, relPath, FSNode.isDir, FSNode.entriesOf,
      parse_git_config, runLines])

/-! ### Claim C4: non-recursive mode -/

theorem findChildren_false_spec (p : List String) :
    ∀ (es : List (String × FSNode)) (cs : List GitDirectory),
    findChildren p false es = .ok cs →
    (∀ c ∈ cs, c.children = [])
    ∧ (∀ n x m, (n, x) ∈ es → x.isDir = true →
        try_get_git_config_remotes x.entriesOf = .ok (some m) →
        ∃ c ∈ cs, c.path = [n] ∧ c.remotes = m)
    ∧ (∀ c ∈ cs, ∃ n x, (n, x) ∈ es ∧ x.isDir = true ∧
        try_get_git_config_remotes x.entriesOf = .ok (some c.remotes) ∧ c.path = [n]) := by
  intro es
  induction es with
  | nil =>
    intro cs h
    simp only [findChildren] at h
    cases h
    exact ⟨by simp, by simp, by simp⟩
  | cons e rest ih =>
    intro cs h
    obtain ⟨n, x⟩ := e
    cases hdir : x.isDir with
    | false =>
      simp only [findChildren, hdir, Bool.false_eq_true, if_false] at h
      obtain ⟨h1, h2, h3⟩ := ih cs h
      refine ⟨h1, ?_, ?_⟩
      · intro n' x' m hmem hdir' htg'
        rcases List.mem_cons.1 hmem with heq | hmem'
        · rw [Prod.mk.injEq] at heq
          obtain ⟨rfl, rfl⟩ := heq
          rw [hdir] at hdir'
          exact absurd hdir' (by simp)
        · exact h2 n' x' m hmem' hdir' htg'
      · intro c hc
        obtain ⟨n', x', hm, hd, ht, hp⟩ := h3 c hc
        exact ⟨n', x', List.mem_cons_of_mem _ hm, hd, ht, hp⟩
    | true =>
      cases htg : try_get_git_config_remotes x.entriesOf with
      | error e' => simp [findChildren, hdir, htg] at h
      | ok r =>
        cases r with
        | none =>
          simp only [findChildren, hdir, htg, Bool.false_eq_true, if_false] at h
          obtain ⟨h1, h2, h3⟩ := ih cs h
          refine ⟨h1, ?_, ?_⟩
          · intro n' x' m hmem hdir' htg'
            rcases List.mem_cons.1 hmem with heq | hmem'
            · rw [Prod.mk.injEq] at heq
              obtain ⟨rfl, rfl⟩ := heq
              rw [htg'] at htg
              exact absurd htg (by simp)
            · exact h2 n' x' m hmem' hdir' htg'
          · intro c hc
            obtain ⟨n', x', hm, hd, ht, hp⟩ := h3 c hc
            exact ⟨n', x', List.mem_cons_of_mem _ hm, hd, ht, hp⟩
        | some m =>
          cases hfc : findChildren p false rest with
          | error e' => simp [findChildren, hdir, htg, relPath_append, hfc] at h
          | ok cs' =>
            simp only [findChildren, hdir, htg, relPath_append, hfc,
              Bool.false_eq_true, if_false] at h
            cases h
            obtain ⟨h1, h2, h3⟩ := ih cs' hfc
            refine ⟨?_, ?_, ?_⟩
            · intro c hc
              rcases List.mem_cons.1 hc with rfl | hc'
              · rfl
              · exact h1 c hc'
            · intro n' x' m' hmem hdir' htg'
              rcases List.mem_cons.1 hmem with heq | hmem'
              · rw [Prod.mk.injEq] at heq
                obtain ⟨rfl, rfl⟩ := heq
                rw [htg'] at htg
                have hm' : m' = m := Option.some.inj (Except.ok.inj htg)
                exact ⟨.node [n'] m [], List.mem_cons_self _ _, rfl, hm'.symm⟩
              · obtain ⟨c, hc, hcp, hcr⟩ := h2 n' x' m' hmem' hdir' htg'
                exact ⟨c, List.mem_cons_of_mem _ hc, hcp, hcr⟩
            · intro c hc
              rcases List.mem_cons.1 hc with rfl | hc'
              · exact ⟨n, x, List.mem_cons_self _ _, hdir, htg, rfl⟩
              · obtain ⟨n', x', hm, hd, ht, hp⟩ := h3 c hc'
                exact ⟨n', x', List.mem_cons_of_mem _ hm, hd, ht, hp⟩

/-- C4: in non-recursive mode the walk inspects only the direct
subdirectories of the root: every child is a leaf; a direct subdirectory
whose extractor yields a mapping — even an empty one — appears as a child
with that mapping and path; and conversely every child's mapping is
exactly the extractor's output on some direct subdirectory, so a remote
declared only two or more levels down never appears. -/
theorem find_git_configs_nonrecursive_spec (p : List String) (rd : Bool)
    (es : List (String × FSNode)) (g : GitDirectory)
    (h : find_git_configs p false (.dirN rd es) = .ok g) :
    (∀ c ∈ g.children, c.children = [])
    ∧ (∀ n x m, (n, x) ∈ es → x.isDir = true →
        try_get_git_config_remotes x.entriesOf = .ok (some m) →
        ∃ c ∈ g.children, c.path = [n] ∧ c.remotes = m)
    ∧ (∀ c ∈ g.children, ∃ n x, (n, x) ∈ es ∧ x.isDir = true ∧
        try_get_git_config_remotes x.entriesOf = .ok (some c.remotes) ∧ c.path = [n]) := by
  cases htg : try_get_git_config_remotes es with
  | error e => simp [find_git_configs, htg] at h
  | ok r =>
    cases rd with
    | false => simp [find_git_configs, htg] at h
    | true =>
      cases hfc : findChildren p false es with
      | error e => simp [find_git_configs, htg, hfc] at h
      | ok cs =>
        have hspec := findChildren_false_spec p es cs hfc
        cases r with
        | none =>
          simp only [find_git_configs, htg, hfc, if_true] at h
          cases h
          exact hspec
        | some m =>
          simp only [find_git_configs, htg, hfc, if_true] at h
          cases h
          exact hspec

theorem find_git_configs_nonrecursive_spec_witness :
    (∀ c ∈ (GitDirectory.node [] [] [.node ["a"] [] []]).children, c.children = [])
    ∧ (∀ n x m, (n, x) ∈ fsC3.entriesOf → x.isDir = true →
        try_get_git_config_remotes x.entriesOf = .ok (some m) →
        ∃ c ∈ (GitDirectory.node [] [] [.node ["a"] [] []]).children,
          c.path = [n] ∧ c.remotes = m)
    ∧ (∀ c ∈ (GitDirectory.node [] [] [.node ["a"] [] []]).children,
        ∃ n x, (n, x) ∈ fsC3.entriesOf ∧ x.isDir = true ∧
          try_get_git_config_remotes x.entriesOf = .ok (some c.remotes) ∧ c.path = [n]) :=
  find_git_configs_nonrecursive_spec [] true fsC3.entriesOf
    (.node [] [] [.node ["a"] [] []])
    (by simp [fsC3, find_git_configs, findChildren, try_get_git_config_remotes,
      cfgFile, lookupEntry, relPath, FSNode.isDir, FSNode.entriesOf,
      parse_git_config, runLines])
